import Mathlib

/-!
Verification development for the query_assistant repository.

Text is modelled as `List Char`, byte buffers as `List Nat`, and similarity
scores as rationals.  The fallible external collaborators (PDF parsing,
embedding, vector-store upsert, answer generation) are passed in as
`Except`-valued oracle functions, so the orchestrator code paths under
`src/src/controllers/ragController.js` become pure functions that can be
proved about and evaluated on concrete inputs.
-/

/-- Index clamping of JavaScript `String.prototype.slice`: negative indices
count from the end, and the result is clamped to `[0, length]`. -/
def jsClamp (len idx : Int) : Int :=
  if idx < 0 then max (len + idx) 0 else min idx len

/-- JavaScript `String.prototype.slice` on a character list. -/
def jsSlice (text : List Char) (start stop : Int) : List Char :=
  (text.drop (jsClamp text.length start).toNat).take
    (jsClamp text.length stop - jsClamp text.length start).toNat

/-- Fueled transcription of the `while` loop of `chunkText` in
`src/src/controllers/ragController.js` (lines 7-16): while `i < text.length`,
push `text.slice(i, i + chunkSize)` and advance `i` by
`chunkSize - overlap`.  The fuel bounds the number of iterations; `none`
means the loop was still running when the fuel ran out. -/
def chunkTextGo (text : List Char) (chunkSize overlap : Int) :
    Nat → Int → List (List Char) → Option (List (List Char))
  | 0, _, _ => none
  | fuel + 1, i, chunks =>
    if i < (text.length : Int) then
      chunkTextGo text chunkSize overlap fuel (i + (chunkSize - overlap))
        (chunks ++ [jsSlice text i (i + chunkSize)])
    else
      some chunks

/-- `chunkText(text, chunkSize, overlap)` as transcribed from the source,
run with the given amount of fuel starting from offset `0`. -/
def chunkTextJS (fuel : Nat) (text : List Char) (chunkSize overlap : Int) :
    Option (List (List Char)) :=
  chunkTextGo text chunkSize overlap fuel 0 []

/-- The loop of `chunkText` never finishes: every amount of fuel is
exhausted. -/
def chunkLoopsForever (text : List Char) (chunkSize overlap : Int) : Prop :=
  ∀ fuel, chunkTextJS fuel text chunkSize overlap = none

/-- Structural helper for the terminating reading of `chunkText`: the fuel is
instantiated with the text length, which suffices whenever
`overlap < chunkSize`. -/
def chunkTextRGo (chunkSize overlap : Nat) : Nat → List Char → List (List Char)
  | 0, _ => []
  | fuel + 1, text =>
    if text.length = 0 ∨ chunkSize ≤ overlap then []
    else text.take chunkSize :: chunkTextRGo chunkSize overlap fuel (text.drop (chunkSize - overlap))

/-- Total version of `chunkText` for the guarded case `overlap < chunkSize`:
`chunkTextJS_eq_chunkTextR` proves it agrees with the loop transcription
`chunkTextJS` whenever the latter is given enough fuel. -/
def chunkTextR (text : List Char) (chunkSize overlap : Nat) : List (List Char) :=
  chunkTextRGo chunkSize overlap text.length text

/-- Chunk-count formula modelled from the spec: the spec claims the number of
chunks is `ceil(max(L - overlap, 0) / (chunkSize - overlap))` for `L > 0`
and `0` for `L = 0`. -/
def claimedChunkCount (L chunkSize overlap : Nat) : Nat :=
  if L = 0 then 0
  else (max (L - overlap) 0 + (chunkSize - overlap) - 1) / (chunkSize - overlap)

/-- Reassembly of a chunk list as described in the spec: keep the first chunk
whole and strip the first `overlap` characters of every later chunk. -/
def reconstruct (overlap : Nat) : List (List Char) → List Char
  | [] => []
  | c :: rest => c ++ (rest.map (fun chunk => chunk.drop overlap)).flatten

/-- Decimal digit character, used to render chunk indices. -/
def digitChar (n : Nat) : Char := Char.ofNat (48 + n)

/-- The ten decimal digit characters. -/
def digitChars : List Char := ['0', '1', '2', '3', '4', '5', '6', '7', '8', '9']

/-- Fueled helper producing the decimal digits of a natural number,
most significant first. -/
def natDigitsGo : Nat → Nat → List Char
  | 0, _ => []
  | fuel + 1, n =>
    if n < 10 then [digitChar n]
    else natDigitsGo fuel (n / 10) ++ [digitChar (n % 10)]

/-- Decimal rendering of a natural number, as JavaScript template
interpolation renders a chunk index. -/
def natDigits (n : Nat) : List Char := natDigitsGo (n + 1) n

/-- The literal separator between the filename and the chunk index inside a
vector id. -/
def sepChunk : List Char := "-chunk-".data

/-- Vector id built at upload time (ragController.js line 70):
the template string combining filename, the separator and the index. -/
def vectorId (filename : List Char) (i : Nat) : List Char :=
  filename ++ sepChunk ++ natDigits i

/-- Scan for the last occurrence of `pat` in `s`, trying positions from `n`
downward; `-1` when no occurrence exists at any tried position. -/
def lastIndexOfFrom (s pat : List Char) : Nat → Int
  | 0 => if pat.isPrefixOf s then 0 else -1
  | p + 1 => if pat.isPrefixOf (s.drop (p + 1)) then ((p + 1 : Nat) : Int) else lastIndexOfFrom s pat p

/-- JavaScript `String.prototype.lastIndexOf`: index of the last position at
which `pat` starts inside `s`, or `-1` if there is none. -/
def jsLastIndexOf (s pat : List Char) : Int := lastIndexOfFrom s pat s.length

/-- Index clamping of JavaScript `String.prototype.substring`: negative
indices become `0` and the result is clamped to `[0, length]`. -/
def jsSubClamp (len idx : Int) : Int := min (max idx 0) len

/-- JavaScript `String.prototype.substring`: clamps both arguments to
`[0, length]` and swaps them when given in decreasing order. -/
def jsSubstring (s : List Char) (a b : Int) : List Char :=
  (s.take (max (jsSubClamp s.length a) (jsSubClamp s.length b)).toNat).drop
    (min (jsSubClamp s.length a) (jsSubClamp s.length b)).toNat

/-- Source filename derived from a vector id in the query path
(ragController.js line 148): the id up to the last occurrence of
the `-chunk-` separator. -/
def fileNameOf (id : List Char) : List Char :=
  jsSubstring id 0 (jsLastIndexOf id sepChunk)

/-- The Unicode replacement character U+FFFD. -/
def replacementChar : Char := Char.ofNat 65533

/-- UTF-8 continuation byte test. -/
def contByte (b : Nat) : Bool := 128 ≤ b && b ≤ 191

/-- Fueled WHATWG UTF-8 decoding step: each unit of fuel covers one decoded
unit, and every step consumes at least one byte, so fuel equal to the byte
count never runs out. -/
def utf8DecodeGo : Nat → List Nat → List Char
  | 0, _ => []
  | _ + 1, [] => []
  | fuel + 1, b :: rest =>
    if b ≤ 127 then
      Char.ofNat b :: utf8DecodeGo fuel rest
    else if 194 ≤ b && b ≤ 223 then
      match rest with
      | [] => [replacementChar]
      | b2 :: rest2 =>
        if contByte b2 then
          Char.ofNat ((b - 192) * 64 + (b2 - 128)) :: utf8DecodeGo fuel rest2
        else replacementChar :: utf8DecodeGo fuel rest
    else if 224 ≤ b && b ≤ 239 then
      match rest with
      | [] => [replacementChar]
      | b2 :: rest2 =>
        if (if b = 224 then 160 else 128) ≤ b2 && b2 ≤ (if b = 237 then 159 else 191) then
          match rest2 with
          | [] => [replacementChar]
          | b3 :: rest3 =>
            if contByte b3 then
              Char.ofNat ((b - 224) * 4096 + (b2 - 128) * 64 + (b3 - 128)) :: utf8DecodeGo fuel rest3
            else replacementChar :: utf8DecodeGo fuel rest2
        else replacementChar :: utf8DecodeGo fuel rest
    else if 240 ≤ b && b ≤ 244 then
      match rest with
      | [] => [replacementChar]
      | b2 :: rest2 =>
        if (if b = 240 then 144 else 128) ≤ b2 && b2 ≤ (if b = 244 then 143 else 191) then
          match rest2 with
          | [] => [replacementChar]
          | b3 :: rest3 =>
            if contByte b3 then
              match rest3 with
              | [] => [replacementChar]
              | b4 :: rest4 =>
                if contByte b4 then
                  Char.ofNat ((b - 240) * 262144 + (b2 - 128) * 4096 + (b3 - 128) * 64 + (b4 - 128)) ::
                    utf8DecodeGo fuel rest4
                else replacementChar :: utf8DecodeGo fuel rest3
            else replacementChar :: utf8DecodeGo fuel rest2
        else replacementChar :: utf8DecodeGo fuel rest
    else replacementChar :: utf8DecodeGo fuel rest

/-- Modelled platform semantics of Node's `Buffer.prototype.toString("utf-8")`
(the WHATWG UTF-8 decoder): a total function replacing every invalid byte
sequence with U+FFFD instead of failing. -/
def utf8Decode (bytes : List Nat) : List Char := utf8DecodeGo bytes.length bytes

/-- Node's `Buffer.toString("utf-8")` as seen by the controller: it never
throws, so the result is always `Except.ok`. -/
def bufferToStringUtf8 (buffer : List Nat) : Except Unit (List Char) :=
  Except.ok (utf8Decode buffer)

/-- An uploaded file as delivered by multer: original name, declared
mimetype, and the raw byte buffer. -/
structure JsFile where
  originalname : List Char
  mimetype : List Char
  buffer : List Nat
deriving DecidableEq

/-- A vector record built for upsert: id, embedding values, and the chunk
text stored as metadata. -/
structure VectorRec where
  id : List Char
  values : List Rat
  metadata : List Char
deriving DecidableEq

/-- Observable outcome of the upload handler: the HTTP status sent and the
list of upsert calls made to the vector store (each one batch of records). -/
structure UploadResult where
  status : Nat
  upsertCalls : List (List VectorRec)
deriving DecidableEq

/-- Text extraction in `uploadDocument` (ragController.js lines 31-56): PDF
buffers go through the `pdf-parse` oracle and parse failures answer 400;
everything else is decoded as UTF-8, which cannot fail. -/
def extractText (pdfParse : List Nat → Except Unit (List Char)) (file : JsFile) :
    Except Nat (List Char) :=
  if file.mimetype = "application/pdf".data then
    match pdfParse file.buffer with
    | Except.ok data => Except.ok data
    | Except.error _ => Except.error 400
  else
    match bufferToStringUtf8 file.buffer with
    | Except.ok text => Except.ok text
    | Except.error _ => Except.error 400

/-- Transcription of `uploadDocument` (ragController.js lines 18-95) against
oracle collaborators: `pdfParse` models `pdf-parse`, `embed` models
`getEmbedding`, `upsertRes` models the Pinecone upsert call.  The chunking
step is `chunkText(text)` with the source defaults 500/100 (the terminating
reading `chunkTextR`, justified by `chunkTextJS_eq_chunkTextR`).  Embedding
failures are caught by the outer `try` and answer 500 before any upsert. -/
def uploadDocument (pdfParse : List Nat → Except Unit (List Char))
    (embed : List Char → Except Unit (List Rat))
    (upsertRes : List VectorRec → Except Unit Unit)
    (file? : Option JsFile) : UploadResult :=
  match file? with
  | none => { status := 400, upsertCalls := [] }
  | some file =>
    match extractText pdfParse file with
    | Except.error s => { status := s, upsertCalls := [] }
    | Except.ok text =>
      let chunks := chunkTextR text 500 100
      match chunks.mapM embed with
      | Except.error _ => { status := 500, upsertCalls := [] }
      | Except.ok embeds =>
        let vectors := chunks.enum.map fun p =>
          { id := vectorId file.originalname p.1, values := embeds.getD p.1 [],
            metadata := p.2 : VectorRec }
        match upsertRes vectors with
        | Except.error _ => { status := 500, upsertCalls := [vectors] }
        | Except.ok _ => { status := 200, upsertCalls := [vectors] }

/-- A similarity match returned by the vector store: id, chunk text
metadata, and score. -/
structure QMatch where
  id : List Char
  text : List Char
  score : Rat
deriving DecidableEq

/-- A `sources` entry in the query response. -/
structure SourceEntry where
  fileName : List Char
  text : List Char
  score : Rat
deriving DecidableEq

/-- Observable outcome of the query handler: HTTP status, answer text,
sources, the arguments of the embedding calls made, and the arguments of
the generation calls made. -/
structure QueryResult where
  status : Nat
  answer : Option (List Char)
  sources : List SourceEntry
  embedArgs : List (Option (List Char))
  generateArgs : List (List Char × List Char)
deriving DecidableEq

/-- Stable descending insertion by score: the model of what
`allMatches.sort((a, b) => b.score - a.score)` leaves in the array. -/
def insertDesc (m : QMatch) : List QMatch → List QMatch
  | [] => [m]
  | x :: xs => if x.score ≤ m.score then m :: x :: xs else x :: insertDesc m xs

/-- Sort matches by descending score, stably. -/
def sortMatches (ms : List QMatch) : List QMatch := ms.foldr insertDesc []

/-- The score threshold of the topK=12 query variant
(ragController.js line 126). -/
def scoreThreshold : Rat := 3 / 10

/-- Match selection of the query path (ragController.js lines 125-133):
sort descending, keep matches with score strictly above the threshold, and
fall back to the first five sorted matches when the filter kept nothing but
matches existed. -/
def selectRelevant (allMatches : List QMatch) : List QMatch :=
  let sorted := sortMatches allMatches
  let relevantMatches := sorted.filter fun m => scoreThreshold < m.score
  if relevantMatches.length = 0 ∧ 0 < allMatches.length then sorted.take 5
  else relevantMatches

/-- Selection modelled from the spec's words for comparison: keep the
matches at or above the threshold. -/
def relevantAtOrAbove (allMatches : List QMatch) : List QMatch :=
  (sortMatches allMatches).filter fun m => scoreThreshold ≤ m.score

/-- Summarization keywords (ragController.js lines 153-160). -/
def summaryKeywords : List (List Char) :=
  ["summary".data, "summarize".data, "overview".data, "main idea".data,
    "main points".data, "gist".data]

/-- JavaScript `String.prototype.toLowerCase`, character by character. -/
def jsToLowerCase (s : List Char) : List Char := s.map Char.toLower

/-- JavaScript `String.prototype.includes`: does `k` occur contiguously
somewhere in `s`? -/
def jsIncludes (s k : List Char) : Bool :=
  (List.range (s.length + 1)).any fun p => k.isPrefixOf (s.drop p)

/-- Summarization-intent detection (ragController.js lines 161-163):
lowercase the question and test substring containment of each keyword. -/
def isSummaryRequest (question : List Char) : Bool :=
  summaryKeywords.any fun k => jsIncludes (jsToLowerCase question) k

/-- The fixed instruction used instead of the question when summarization
intent is detected. -/
def summarizeInstr : List Char := "Summarize the following content:".data

/-- Canned answer when no namespaces exist. -/
def cannedNoDocs : List Char :=
  "No documents have been uploaded yet. Please upload a document first.".data

/-- Canned answer when no matches survive selection.  The apostrophe of the
source string is spelled via its code point. -/
def cannedNoRelevant : List Char :=
  "I couldn".data ++ Char.ofNat 39 ::
    "t find any relevant information in the uploaded documents to answer your question.".data

/-- The blank-line separator joining context chunks. -/
def blankLineSep : List Char := "\n\n".data

/-- Transcription of `queryDocuments` (ragController.js lines 97-185) against
oracle collaborators: `embedQ` models `getEmbedding(question)` applied to
the possibly-absent question, `namespaces` the result of
`describeIndexStats`, `queryNs` the per-namespace topK=12 query, and
`generate` the `generateAnswer` call.  A missing question reaching
`question.toLowerCase()` throws and is caught as a 500. -/
def queryDocuments (embedQ : Option (List Char) → Except Unit (List Rat))
    (namespaces : List (List Char))
    (queryNs : List Char → List Rat → List QMatch)
    (generate : List Char → List Char → Except Unit (List Char))
    (question : Option (List Char)) : QueryResult :=
  match embedQ question with
  | Except.error _ =>
    { status := 500, answer := none, sources := [], embedArgs := [question], generateArgs := [] }
  | Except.ok qvec =>
    if namespaces.length = 0 then
      { status := 200, answer := some cannedNoDocs, sources := [],
        embedArgs := [question], generateArgs := [] }
    else
      let allMatches := (namespaces.map fun ns => queryNs ns qvec).flatten
      let relevantMatches := selectRelevant allMatches
      if relevantMatches.length = 0 then
        { status := 200, answer := some cannedNoRelevant, sources := [],
          embedArgs := [question], generateArgs := [] }
      else
        let context := List.intercalate blankLineSep (relevantMatches.map fun m => m.text)
        let sources := relevantMatches.map fun m =>
          { fileName := fileNameOf m.id, text := m.text, score := m.score : SourceEntry }
        match question with
        | none =>
          { status := 500, answer := none, sources := [],
            embedArgs := [question], generateArgs := [] }
        | some q =>
          let instr := if isSummaryRequest q then summarizeInstr else q
          match generate instr context with
          | Except.error _ =>
            { status := 500, answer := none, sources := [],
              embedArgs := [question], generateArgs := [(instr, context)] }
          | Except.ok ans =>
            { status := 200, answer := some ans, sources := sources,
              embedArgs := [question], generateArgs := [(instr, context)] }

/-- Concrete match with score 1, above the threshold. -/
def matchHigh : QMatch := { id := "a-chunk-0".data, text := "ta".data, score := 1 }

/-- Concrete match with score exactly 3/10, at the threshold. -/
def matchAt : QMatch := { id := "b-chunk-0".data, text := "tb".data, score := 3 / 10 }

/-- Concrete match with score 1/10, below the threshold. -/
def matchLow : QMatch := { id := "b-chunk-0".data, text := "tb".data, score := 1 / 10 }

/-- Embedding stub returning the one-dimensional vector `[1]`. -/
def embedOne : List Char → Except Unit (List Rat) := fun _ => Except.ok [1]

/-- Embedding stub that always fails. -/
def embedFail : List Char → Except Unit (List Rat) := fun _ => Except.error ()

/-- Upsert stub that always succeeds. -/
def upsertOk : List VectorRec → Except Unit Unit := fun _ => Except.ok ()

/-- PDF-parse stub that always fails (irrelevant for non-PDF files). -/
def pdfFail : List Nat → Except Unit (List Char) := fun _ => Except.error ()

/-- A text file whose buffer is empty. -/
def emptyTextFile : JsFile :=
  { originalname := "doc.txt".data, mimetype := "text/plain".data, buffer := [] }

/-- A text file whose extracted text is a single space. -/
def spaceFile : JsFile :=
  { originalname := "doc.txt".data, mimetype := "text/plain".data, buffer := [32] }

/-- A text file whose extracted text is `hi`. -/
def hiFile : JsFile :=
  { originalname := "f.txt".data, mimetype := "text/plain".data, buffer := [104, 105] }

theorem chunkTextRGo_fuel (chunkSize overlap : Nat) :
    ∀ f1 f2 (text : List Char), text.length ≤ f1 → text.length ≤ f2 →
      chunkTextRGo chunkSize overlap f1 text = chunkTextRGo chunkSize overlap f2 text := by
  intro f1
  induction f1 with
  | zero =>
    intro f2 text h1 h2
    have htext : text = [] := List.eq_nil_of_length_eq_zero (Nat.le_zero.mp h1)
    subst htext
    cases f2 <;> simp [chunkTextRGo]
  | succ f1 ih =>
    intro f2 text h1 h2
    cases f2 with
    | zero =>
      have htext : text = [] := List.eq_nil_of_length_eq_zero (Nat.le_zero.mp h2)
      subst htext
      simp [chunkTextRGo]
    | succ f2 =>
      simp only [chunkTextRGo]
      by_cases hstop : text.length = 0 ∨ chunkSize ≤ overlap
      · rw [if_pos hstop, if_pos hstop]
      · rw [if_neg hstop, if_neg hstop]
        push_neg at hstop
        congr 1
        exact ih f2 (text.drop (chunkSize - overlap)) (by simp; omega) (by simp; omega)

theorem chunkTextR_nil (chunkSize overlap : Nat) : chunkTextR [] chunkSize overlap = [] := by
  simp [chunkTextR, chunkTextRGo]

/-- Recurrence for the total chunker in the guarded case. -/
theorem chunkTextR_cons (chunkSize overlap : Nat) (h : overlap < chunkSize)
    (text : List Char) (htext : text ≠ []) :
    chunkTextR text chunkSize overlap =
      text.take chunkSize :: chunkTextR (text.drop (chunkSize - overlap)) chunkSize overlap := by
  have hlen : text.length ≠ 0 := fun h0 => htext (List.length_eq_zero.mp h0)
  obtain ⟨L, hL⟩ : ∃ L, text.length = L + 1 := by
    cases hlen' : text.length with
    | zero => exact absurd hlen' hlen
    | succ L => exact ⟨L, rfl⟩
  unfold chunkTextR
  rw [hL]
  simp only [chunkTextRGo]
  rw [if_neg (by omega : ¬ (text.length = 0 ∨ chunkSize ≤ overlap))]
  congr 1
  exact chunkTextRGo_fuel chunkSize overlap L (text.drop (chunkSize - overlap)).length
    (text.drop (chunkSize - overlap)) (by simp; omega) le_rfl

theorem jsSlice_eq (text : List Char) (n c : Nat) :
    jsSlice text (n : Int) ((n : Int) + (c : Int)) = (text.drop n).take c := by
  unfold jsSlice jsClamp
  rw [if_neg (by omega : ¬ ((n : Int) < 0)),
    if_neg (by omega : ¬ ((n : Int) + (c : Int) < 0))]
  by_cases hn : n ≤ text.length
  · rw [show (min ((n : Int) + (c : Int)) (text.length : Int)
        - min (n : Int) (text.length : Int)).toNat = min c (text.length - n) from by omega]
    rw [show (min (n : Int) (text.length : Int)).toNat = n from by omega]
    apply List.take_eq_take.mpr
    simp only [List.length_drop]
    omega
  · rw [show (min (n : Int) (text.length : Int)).toNat = text.length from by omega]
    rw [List.drop_length, show text.drop n = [] from by rw [List.drop_eq_nil_iff]; omega]
    simp

theorem chunkTextGo_spec (chunkSize overlap : Nat) (h : overlap < chunkSize) (text : List Char) :
    ∀ (fuel n : Nat) (acc : List (List Char)), text.length - n < fuel →
      chunkTextGo text chunkSize overlap fuel n acc
        = some (acc ++ chunkTextR (text.drop n) chunkSize overlap) := by
  intro fuel
  induction fuel with
  | zero => intro n acc hfuel; omega
  | succ fuel ih =>
    intro n acc hfuel
    simp only [chunkTextGo]
    by_cases hn : n < text.length
    · rw [if_pos (by exact_mod_cast hn)]
      rw [show ((n : Int) + ((chunkSize : Int) - (overlap : Int)))
          = ((n + (chunkSize - overlap) : Nat) : Int) from by omega]
      rw [ih (n + (chunkSize - overlap)) _ (by omega)]
      rw [chunkTextR_cons chunkSize overlap h (text.drop n)
        (by rw [Ne, List.drop_eq_nil_iff]; omega)]
      rw [jsSlice_eq, List.drop_drop]
      simp
    · rw [if_neg (by exact_mod_cast hn)]
      rw [show text.drop n = [] from by rw [List.drop_eq_nil_iff]; omega, chunkTextR_nil]
      simp

/-- With fuel exceeding the text length, the loop transcription agrees with
the terminating reading of `chunkText` whenever `overlap < chunkSize`. -/
theorem chunkTextJS_eq_chunkTextR (chunkSize overlap : Nat) (h : overlap < chunkSize)
    (text : List Char) (fuel : Nat) (hfuel : text.length < fuel) :
    chunkTextJS fuel text chunkSize overlap = some (chunkTextR text chunkSize overlap) := by
  have hspec := chunkTextGo_spec chunkSize overlap h text fuel 0 [] (by omega)
  simpa [chunkTextJS] using hspec

theorem chunkTextGo_none (text : List Char) (chunkSize overlap : Int)
    (hco : chunkSize ≤ overlap) :
    ∀ (fuel : Nat) (i : Int) (acc : List (List Char)), i < (text.length : Int) →
      chunkTextGo text chunkSize overlap fuel i acc = none := by
  intro fuel
  induction fuel with
  | zero => intro i acc hi; rfl
  | succ fuel ih =>
    intro i acc hi
    simp only [chunkTextGo]
    rw [if_pos hi]
    exact ih _ _ (by omega)

theorem chunkText_loops (text : List Char) (chunkSize overlap : Int)
    (hco : chunkSize ≤ overlap) (htext : text ≠ []) :
    chunkLoopsForever text chunkSize overlap := by
  intro fuel
  apply chunkTextGo_none text chunkSize overlap hco fuel 0 []
  have hpos : 0 < text.length := List.length_pos.mpr htext
  exact_mod_cast hpos

theorem chunkTextR_length (chunkSize overlap : Nat) (h : overlap < chunkSize) :
    ∀ text : List Char, (chunkTextR text chunkSize overlap).length
      = (text.length + (chunkSize - overlap) - 1) / (chunkSize - overlap) := by
  suffices hgen : ∀ (L : Nat) (text : List Char), text.length = L →
      (chunkTextR text chunkSize overlap).length
        = (text.length + (chunkSize - overlap) - 1) / (chunkSize - overlap) by
    intro text; exact hgen text.length text rfl
  intro L
  induction L using Nat.strong_induction_on with
  | _ L ih =>
    intro text hL
    by_cases h0 : text = []
    · subst h0
      rw [chunkTextR_nil]
      simp only [List.length_nil, Nat.zero_add]
      rw [Nat.div_eq_of_lt (by omega)]
    · have hpos : 0 < text.length := List.length_pos.mpr h0
      rw [chunkTextR_cons chunkSize overlap h text h0]
      simp only [List.length_cons]
      rw [ih (text.length - (chunkSize - overlap)) (by omega) _ (by simp)]
      simp only [List.length_drop]
      rcases le_or_lt text.length (chunkSize - overlap) with hle | hlt
      · rw [show text.length - (chunkSize - overlap) = 0 from by omega]
        rw [Nat.div_eq_of_lt (by omega)]
        rw [show text.length + (chunkSize - overlap) - 1
            = (text.length - 1) + (chunkSize - overlap) from by omega]
        rw [Nat.add_div_right _ (by omega), Nat.div_eq_of_lt (by omega)]
      · rw [show text.length - (chunkSize - overlap) + (chunkSize - overlap) - 1
            = (text.length - 1 - (chunkSize - overlap)) + (chunkSize - overlap) from by omega]
        rw [show text.length + (chunkSize - overlap) - 1
            = (text.length - 1) + (chunkSize - overlap) from by omega]
        rw [Nat.add_div_right _ (by omega), Nat.add_div_right _ (by omega)]
        conv_rhs => rw [show text.length - 1
          = (text.length - 1 - (chunkSize - overlap)) + (chunkSize - overlap) from by omega]
        rw [Nat.add_div_right _ (by omega)]

theorem chunkTextR_flatten_drop (chunkSize overlap : Nat) (h : overlap < chunkSize) :
    ∀ (L : Nat) (text : List Char), text.length = L → text ≠ [] →
      ((chunkTextR text chunkSize overlap).map (fun chunk => chunk.drop overlap)).flatten
        = text.drop overlap := by
  intro L
  induction L using Nat.strong_induction_on with
  | _ L ih =>
    intro text hL h0
    have hpos : 0 < text.length := List.length_pos.mpr h0
    rw [chunkTextR_cons chunkSize overlap h text h0]
    simp only [List.map_cons, List.flatten_cons]
    by_cases hd : text.drop (chunkSize - overlap) = []
    · rw [hd, chunkTextR_nil]
      simp only [List.map_nil, List.flatten_nil, List.append_nil]
      rw [List.take_of_length_le (by rw [List.drop_eq_nil_iff] at hd; omega)]
    · rw [ih (text.drop (chunkSize - overlap)).length (by simp only [List.length_drop]; omega)
        _ rfl hd]
      rw [List.drop_take, List.drop_drop,
        show chunkSize - overlap + overlap = chunkSize from by omega]
      have htad := List.take_append_drop (chunkSize - overlap) (text.drop overlap)
      rw [List.drop_drop, show overlap + (chunkSize - overlap) = chunkSize from by omega] at htad
      exact htad

theorem reconstruct_chunkTextR (chunkSize overlap : Nat) (h : overlap < chunkSize)
    (text : List Char) :
    reconstruct overlap (chunkTextR text chunkSize overlap) = text := by
  by_cases h0 : text = []
  · subst h0; rw [chunkTextR_nil]; rfl
  · rw [chunkTextR_cons chunkSize overlap h text h0]
    simp only [reconstruct]
    by_cases hd : text.drop (chunkSize - overlap) = []
    · rw [hd, chunkTextR_nil]
      simp only [List.map_nil, List.flatten_nil, List.append_nil]
      exact List.take_of_length_le (by rw [List.drop_eq_nil_iff] at hd; omega)
    · rw [chunkTextR_flatten_drop chunkSize overlap h (text.drop (chunkSize - overlap)).length
        _ rfl hd]
      rw [List.drop_drop, show chunkSize - overlap + overlap = chunkSize from by omega]
      exact List.take_append_drop chunkSize text

/-- C1 (amended): for every text and every `overlap < chunkSize`, `chunkText`
returns exactly `ceil(L / (chunkSize - overlap))` chunks (`0` for `L = 0`),
not the spec's `ceil(max(L - overlap, 0) / (chunkSize - overlap))`; the
boundary example holds: with defaults 500/100 a 1000-character text gives
exactly the three chunks `[0,500)`, `[400,900)`, `[800,1000)`. -/
theorem chunk_count_amended :
    (∀ (chunkSize overlap : Nat) (text : List Char), overlap < chunkSize →
      ∃ chunks, chunkTextJS (text.length + 1) text chunkSize overlap = some chunks ∧
        chunks.length = (text.length + (chunkSize - overlap) - 1) / (chunkSize - overlap))
    ∧ (∀ text : List Char, text.length = 1000 →
        chunkTextJS 1001 text 500 100
          = some [text.take 500, (text.drop 400).take 500, text.drop 800]) := by
  constructor
  · intro chunkSize overlap text h
    exact ⟨chunkTextR text chunkSize overlap,
      chunkTextJS_eq_chunkTextR chunkSize overlap h text _ (by omega),
      chunkTextR_length chunkSize overlap h text⟩
  · intro text hlen
    have hcast := chunkTextJS_eq_chunkTextR 500 100 (by omega) text 1001 (by omega)
    have hmain : chunkTextJS 1001 text 500 100
        = some (chunkTextR text 500 100) := by exact_mod_cast hcast
    rw [hmain]
    rw [chunkTextR_cons 500 100 (by omega) text
      (by intro hh; rw [hh] at hlen; simp at hlen)]
    simp only [show (500 : Nat) - 100 = 400 from by norm_num]
    rw [chunkTextR_cons 500 100 (by omega) (text.drop 400)
      (by rw [Ne, List.drop_eq_nil_iff]; omega)]
    simp only [show (500 : Nat) - 100 = 400 from by norm_num]
    rw [chunkTextR_cons 500 100 (by omega) ((text.drop 400).drop 400)
      (by rw [Ne, List.drop_eq_nil_iff]; simp only [List.length_drop]; omega)]
    simp only [show (500 : Nat) - 100 = 400 from by norm_num]
    rw [show (((text.drop 400).drop 400).drop 400) = [] from by
      rw [List.drop_eq_nil_iff]; simp only [List.length_drop]; omega]
    rw [chunkTextR_nil]
    rw [show ((text.drop 400).drop 400) = text.drop 800 from by rw [List.drop_drop]]
    rw [List.take_of_length_le (l := text.drop 800)
      (by simp only [List.length_drop]; omega)]

/-- C1 counterexample: on a one-character text with the default parameters,
`chunkText` returns one chunk while the spec's count formula
`ceil(max(L - overlap, 0) / (chunkSize - overlap))` gives zero. -/
theorem chunk_count_claim_counterexample :
    chunkTextJS 2 ['a'] 500 100 = some [['a']] ∧ claimedChunkCount 1 500 100 = 0 := by
  constructor
  · rfl
  · rfl

/-- Witness instantiating `chunk_count_amended` at concrete inputs. -/
theorem chunk_count_amended_witness :
    (1 < 2 ∧ ∃ chunks, chunkTextJS ((['a', 'b', 'c'] : List Char).length + 1) ['a', 'b', 'c'] 2 1
        = some chunks ∧
      chunks.length = ((['a', 'b', 'c'] : List Char).length + (2 - 1) - 1) / (2 - 1))
    ∧ ((List.replicate 1000 'a').length = 1000 ∧
      chunkTextJS 1001 (List.replicate 1000 'a') 500 100
        = some [(List.replicate 1000 'a').take 500,
            ((List.replicate 1000 'a').drop 400).take 500,
            (List.replicate 1000 'a').drop 800]) :=
  ⟨⟨by omega, chunk_count_amended.1 2 1 ['a', 'b', 'c'] (by omega)⟩,
    ⟨by rw [List.length_replicate],
      chunk_count_amended.2 (List.replicate 1000 'a') (by rw [List.length_replicate])⟩⟩

/-- C2 (amended): `chunkText` has no guard for `chunkSize ≤ overlap`: in that
configuration the offset never advances past the end and the loop never
returns on any non-empty text (every fuel is exhausted), while for
`overlap < chunkSize` the loop terminates on every text. -/
theorem chunk_guard_amended :
    (∀ (chunkSize overlap : Int) (text : List Char), chunkSize ≤ overlap → text ≠ [] →
      chunkLoopsForever text chunkSize overlap)
    ∧ (∀ (chunkSize overlap : Nat) (text : List Char), overlap < chunkSize →
        chunkTextJS (text.length + 1) text chunkSize overlap ≠ none) := by
  constructor
  · intro chunkSize overlap text hco htext
    exact chunkText_loops text chunkSize overlap hco htext
  · intro chunkSize overlap text h
    rw [chunkTextJS_eq_chunkTextR chunkSize overlap h text _ (by omega)]
    simp

/-- C2 counterexample: with `chunkSize = overlap = 1` and the non-empty text
`"a"`, the `chunkText` loop runs forever instead of failing fast, so
`chunkText` does not terminate on every input. -/
theorem chunk_guard_counterexample : chunkLoopsForever ['a'] 1 1 :=
  chunkText_loops ['a'] 1 1 (by omega) (by simp)

/-- Witness instantiating `chunk_guard_amended` at concrete inputs. -/
theorem chunk_guard_amended_witness :
    ((2 : Int) ≤ 3 ∧ (['b'] : List Char) ≠ [] ∧ chunkLoopsForever ['b'] 2 3)
    ∧ (1 < 3 ∧ chunkTextJS ((['b', 'c'] : List Char).length + 1) ['b', 'c'] 3 1 ≠ none) :=
  ⟨⟨by omega, by simp, chunk_guard_amended.1 2 3 ['b'] (by omega) (by simp)⟩,
    ⟨by omega, chunk_guard_amended.2 3 1 ['b', 'c'] (by omega)⟩⟩

/-- C8: for every text and every `overlap < chunkSize`, concatenating the
chunks returned by `chunkText` - the first whole and every later chunk with
its first `overlap` characters removed - reconstructs the text exactly. -/
theorem chunk_reconstruction (chunkSize overlap : Nat) (text : List Char)
    (h : overlap < chunkSize) :
    ∃ chunks, chunkTextJS (text.length + 1) text chunkSize overlap = some chunks ∧
      reconstruct overlap chunks = text :=
  ⟨chunkTextR text chunkSize overlap,
    chunkTextJS_eq_chunkTextR chunkSize overlap h text _ (by omega),
    reconstruct_chunkTextR chunkSize overlap h text⟩

/-- Witness instantiating `chunk_reconstruction` at a concrete input. -/
theorem chunk_reconstruction_witness :
    1 < 3 ∧ ∃ chunks,
      chunkTextJS ((['x', 'y', 'z', 'w'] : List Char).length + 1) ['x', 'y', 'z', 'w'] 3 1
        = some chunks ∧ reconstruct 1 chunks = ['x', 'y', 'z', 'w'] :=
  ⟨by omega, chunk_reconstruction 3 1 ['x', 'y', 'z', 'w'] (by omega)⟩

theorem natDigitsGo_digits : ∀ (fuel n : Nat), ∀ c ∈ natDigitsGo fuel n, c ∈ digitChars := by
  intro fuel
  induction fuel with
  | zero => intro n c hc; simp [natDigitsGo] at hc
  | succ fuel ih =>
    intro n c hc
    simp only [natDigitsGo] at hc
    by_cases hn : n < 10
    · rw [if_pos hn] at hc
      simp only [List.mem_singleton] at hc
      subst hc
      interval_cases n <;> decide
    · rw [if_neg hn] at hc
      rcases List.mem_append.mp hc with h1 | h2
      · exact ih _ _ h1
      · simp only [List.mem_singleton] at h2
        subst h2
        have hm : n % 10 < 10 := Nat.mod_lt _ (by omega)
        set m := n % 10 with hmdef
        interval_cases m <;> decide

theorem natDigits_digits (n : Nat) : ∀ c ∈ natDigits n, c ∈ digitChars :=
  natDigitsGo_digits (n + 1) n

theorem natDigits_ne_nil (n : Nat) : natDigits n ≠ [] := by
  simp only [natDigits, natDigitsGo]
  split <;> simp

theorem sep_no_late_occurrence (d : List Char) (hd : ∀ c ∈ d, c ∈ digitChars)
    (k : Nat) (hk : 1 ≤ k) : ¬ sepChunk <+: (sepChunk ++ d).drop k := by
  intro hpre
  have hsep : sepChunk = '-' :: ['c', 'h', 'u', 'n', 'k', '-'] := rfl
  by_cases h7 : k ≤ 6
  · interval_cases k
    · rw [hsep] at hpre
      simp only [List.cons_append, List.drop_succ_cons, List.drop_zero] at hpre
      have := (List.cons_prefix_cons.mp hpre).1
      exact absurd this (by decide)
    · rw [hsep] at hpre
      simp only [List.cons_append, List.drop_succ_cons, List.drop_zero] at hpre
      have := (List.cons_prefix_cons.mp hpre).1
      exact absurd this (by decide)
    · rw [hsep] at hpre
      simp only [List.cons_append, List.drop_succ_cons, List.drop_zero] at hpre
      have := (List.cons_prefix_cons.mp hpre).1
      exact absurd this (by decide)
    · rw [hsep] at hpre
      simp only [List.cons_append, List.drop_succ_cons, List.drop_zero] at hpre
      have := (List.cons_prefix_cons.mp hpre).1
      exact absurd this (by decide)
    · rw [hsep] at hpre
      simp only [List.cons_append, List.drop_succ_cons, List.drop_zero] at hpre
      have := (List.cons_prefix_cons.mp hpre).1
      exact absurd this (by decide)
    · rw [hsep] at hpre
      simp only [List.cons_append, List.drop_succ_cons, List.drop_zero] at hpre
      have htail := (List.cons_prefix_cons.mp hpre).2
      obtain ⟨t, ht⟩ := htail
      have ht2 : ['c', 'h', 'u', 'n', 'k', '-'] ++ t = d := by simpa using ht
      have hcd : 'c' ∈ d := by rw [← ht2]; simp
      exact absurd (hd 'c' hcd) (by decide)
  · have hlen : sepChunk.length = 7 := rfl
    have hdrop : (sepChunk ++ d).drop k = d.drop (k - 7) := by
      have h2 : (sepChunk ++ d).drop (sepChunk.length + (k - 7)) = d.drop (k - 7) := by
        simp [List.drop_append]
      rw [show sepChunk.length + (k - 7) = k from by omega] at h2
      exact h2
    rw [hdrop] at hpre
    cases hdd : d.drop (k - 7) with
    | nil =>
      rw [hdd] at hpre
      have hnil : sepChunk = [] := List.prefix_nil.mp hpre
      exact absurd hnil (by decide)
    | cons x xs =>
      rw [hdd, hsep] at hpre
      have hx : '-' = x := (List.cons_prefix_cons.mp hpre).1
      have hxd : x ∈ d := by
        have hxk : x ∈ d.drop (k - 7) := by rw [hdd]; simp
        exact List.mem_of_mem_drop hxk
      have hmem := hd x hxd
      rw [← hx] at hmem
      exact absurd hmem (by decide)

theorem lastIndexOfFrom_eq (s pat : List Char) (p : Nat)
    (hp : pat.isPrefixOf (s.drop p) = true)
    (hmax : ∀ q, p < q → ¬ pat.isPrefixOf (s.drop q) = true) :
    ∀ n, p ≤ n → lastIndexOfFrom s pat n = (p : Int) := by
  intro n
  induction n with
  | zero =>
    intro hpn
    have hp0 : p = 0 := by omega
    subst hp0
    simp only [List.drop_zero] at hp
    simp only [lastIndexOfFrom, if_pos hp]
    rfl
  | succ n ih =>
    intro hpn
    simp only [lastIndexOfFrom]
    by_cases hq : p = n + 1
    · subst hq
      rw [if_pos hp]
    · rw [if_neg (hmax (n + 1) (by omega))]
      exact ih (by omega)

theorem jsLastIndexOf_vectorId (f d : List Char)
    (hd : ∀ c ∈ d, c ∈ digitChars) :
    jsLastIndexOf (f ++ sepChunk ++ d) sepChunk = (f.length : Int) := by
  unfold jsLastIndexOf
  apply lastIndexOfFrom_eq
  · have hdl : (f ++ sepChunk ++ d).drop f.length = sepChunk ++ d := by
      rw [List.append_assoc, List.drop_left]
    rw [hdl]
    exact List.isPrefixOf_iff_prefix.mpr (List.prefix_append _ _)
  · intro q hq hpre
    have hq7 : (f ++ sepChunk ++ d).drop q = (sepChunk ++ d).drop (q - f.length) := by
      rw [List.append_assoc, show q = f.length + (q - f.length) from by omega]
      simp [List.drop_append]
    rw [hq7] at hpre
    exact sep_no_late_occurrence d hd (q - f.length) (by omega)
      (List.isPrefixOf_iff_prefix.mp hpre)
  · simp only [List.length_append]
    omega

theorem fileNameOf_vectorId (f : List Char) (i : Nat) :
    fileNameOf (vectorId f i) = f := by
  unfold fileNameOf vectorId
  rw [jsLastIndexOf_vectorId f (natDigits i) (natDigits_digits i)]
  have hle : f.length ≤ (f ++ sepChunk ++ natDigits i).length := by
    simp only [List.length_append]; omega
  unfold jsSubstring
  rw [show jsSubClamp ((f ++ sepChunk ++ natDigits i).length : Int) 0 = 0 from by
    unfold jsSubClamp; omega]
  rw [show jsSubClamp ((f ++ sepChunk ++ natDigits i).length : Int) (f.length : Int)
      = (f.length : Int) from by
    unfold jsSubClamp
    have hle2 : (f.length : Int) ≤ ((f ++ sepChunk ++ natDigits i).length : Int) := by
      exact_mod_cast hle
    omega]
  rw [show max (0 : Int) (f.length : Int) = (f.length : Int) from by omega]
  rw [show min (0 : Int) (f.length : Int) = 0 from by omega]
  rw [show ((f.length : Nat) : Int).toNat = f.length from by omega]
  rw [show ((0 : Int)).toNat = 0 from rfl]
  rw [List.append_assoc, List.take_left, List.drop_zero]

/-- C7: for every filename `f` and chunk index `i` the upsert id is
`f ++ "-chunk-" ++ i` and the query path's `fileName` derivation (the id up
to the last occurrence of `-chunk-`) recovers `f` exactly, even when `f`
itself contains `-chunk-`; in particular the id `report.pdf-chunk-7` yields
`report.pdf`. -/
theorem vector_id_roundtrip :
    (∀ (filename : List Char) (i : Nat), fileNameOf (vectorId filename i) = filename)
    ∧ fileNameOf ("report.pdf-chunk-7".data) = "report.pdf".data := by
  refine ⟨fileNameOf_vectorId, ?_⟩
  have h1 : "report.pdf-chunk-7".data = vectorId ("report.pdf".data) 7 := by decide
  rw [h1, fileNameOf_vectorId]

/-- C9: for every upload whose declared mimetype is not `application/pdf`,
text extraction cannot fail: the bytes are decoded as UTF-8 with invalid
sequences replaced by U+FFFD (never a decode error), so the extraction
error branch for non-PDF files is unreachable and every non-PDF mimetype is
processed as text. -/
theorem non_pdf_extraction_total :
    (∀ (pdfParse : List Nat → Except Unit (List Char)) (file : JsFile),
      file.mimetype ≠ "application/pdf".data →
        extractText pdfParse file = Except.ok (utf8Decode file.buffer))
    ∧ utf8Decode [255] = [replacementChar] := by
  constructor
  · intro pdfParse file hmt
    unfold extractText
    rw [if_neg hmt]
    rfl
  · rfl

/-- Witness instantiating `non_pdf_extraction_total` at a concrete file. -/
theorem non_pdf_extraction_total_witness :
    (⟨"a.txt".data, "text/plain".data, [255]⟩ : JsFile).mimetype ≠ "application/pdf".data
    ∧ extractText (fun _ => Except.error ()) ⟨"a.txt".data, "text/plain".data, [255]⟩
        = Except.ok (utf8Decode [255]) :=
  ⟨by decide, non_pdf_extraction_total.1 (fun _ => Except.error ()) _ (by decide)⟩

theorem jsIncludes_of_infix (s k : List Char) (h : k <:+: s) : jsIncludes s k = true := by
  obtain ⟨pre, post, hps⟩ := h
  unfold jsIncludes
  rw [List.any_eq_true]
  refine ⟨pre.length, ?_, ?_⟩
  · rw [List.mem_range, ← hps]
    simp only [List.length_append]
    omega
  · rw [← hps, List.append_assoc, List.drop_left]
    exact List.isPrefixOf_iff_prefix.mpr (List.prefix_append _ _)

theorem isSummaryRequest_of_registration (q : List Char)
    (h : "registration".data <:+: q) : isSummaryRequest q = true := by
  unfold isSummaryRequest
  rw [List.any_eq_true]
  refine ⟨"gist".data, by decide, ?_⟩
  apply jsIncludes_of_infix
  have h1 : jsToLowerCase "registration".data <:+: jsToLowerCase q := h.map Char.toLower
  have h2 : jsToLowerCase "registration".data = "registration".data := by decide
  rw [h2] at h1
  exact List.IsInfix.trans (by decide : "gist".data <:+: "registration".data) h1

theorem queryDocuments_generateArgs (e : Option (List Char) → Except Unit (List Rat))
    (ns : List (List Char)) (qn : List Char → List Rat → List QMatch)
    (g : List Char → List Char → Except Unit (List Char)) (q : List Char) :
    (queryDocuments e ns qn g (some q)).generateArgs = [] ∨
    ∃ ctx, (queryDocuments e ns qn g (some q)).generateArgs
        = [(if isSummaryRequest q then summarizeInstr else q, ctx)] := by
  rcases he : e (some q) with err | qvec
  · simp only [queryDocuments, he]
    left
    trivial
  · simp only [queryDocuments, he]
    split
    · left
      trivial
    · split
      · left
        trivial
      · split
        · right
          exact ⟨_, rfl⟩
        · right
          exact ⟨_, rfl⟩

/-- C10: summarization-intent detection lowercases the question and tests
plain substring containment of each keyword, so any question containing the
word `registration` (which contains the keyword `gist`) is detected as a
summary request and routed to the fixed `Summarize the following content:`
instruction instead of the user's question. -/
theorem summary_keyword_routing :
    ∀ (q : List Char) (embedQ : Option (List Char) → Except Unit (List Rat))
      (namespaces : List (List Char)) (queryNs : List Char → List Rat → List QMatch)
      (generate : List Char → List Char → Except Unit (List Char)),
      "registration".data <:+: q →
        isSummaryRequest q = true ∧
        ∀ p ∈ (queryDocuments embedQ namespaces queryNs generate (some q)).generateArgs,
          p.1 = summarizeInstr := by
  intro q e ns qn g h
  have hsum := isSummaryRequest_of_registration q h
  refine ⟨hsum, ?_⟩
  intro p hp
  rcases queryDocuments_generateArgs e ns qn g q with h0 | ⟨ctx, hctx⟩
  · rw [h0] at hp
    simp at hp
  · rw [hctx] at hp
    simp only [List.mem_singleton] at hp
    subst hp
    simp [hsum]

/-- Witness instantiating `summary_keyword_routing` at a concrete question
and concrete oracles. -/
theorem summary_keyword_routing_witness :
    "registration".data <:+: "Any registration info".data ∧
    (isSummaryRequest "Any registration info".data = true ∧
      ∀ p ∈ (queryDocuments (fun _ => Except.ok []) [] (fun _ _ => [])
          (fun _ _ => Except.ok []) (some "Any registration info".data)).generateArgs,
        p.1 = summarizeInstr) :=
  ⟨⟨"Any ".data, " info".data, by decide⟩,
    summary_keyword_routing "Any registration info".data (fun _ => Except.ok []) []
      (fun _ _ => []) (fun _ _ => Except.ok [])
      ⟨"Any ".data, " info".data, by decide⟩⟩

/-- C5 (amended): the query path performs no question validation at all: it
never answers 400 for any request, and a missing question is still passed
to the embedding call (failures surface as 500, not as a 400
missing-question error). -/
theorem missing_question_amended :
    (∀ (embedQ : Option (List Char) → Except Unit (List Rat))
      (namespaces : List (List Char)) (queryNs : List Char → List Rat → List QMatch)
      (generate : List Char → List Char → Except Unit (List Char))
      (question : Option (List Char)),
      (queryDocuments embedQ namespaces queryNs generate question).status ≠ 400)
    ∧ (∀ (embedQ : Option (List Char) → Except Unit (List Rat))
      (namespaces : List (List Char)) (queryNs : List Char → List Rat → List QMatch)
      (generate : List Char → List Char → Except Unit (List Char)),
      (queryDocuments embedQ namespaces queryNs generate none).embedArgs = [none]) := by
  constructor
  · intro e ns qn g q
    simp only [queryDocuments]
    split
    · simp
    · split
      · simp
      · split
        · simp
        · split
          · simp
          · split
            · simp
            · simp
  · intro e ns qn g
    simp only [queryDocuments]
    split
    · rfl
    · split
      · rfl
      · split
        · rfl
        · rfl

/-- C5 counterexample: with a missing question the query path still calls
the embedding oracle with the absent question and answers 500, not the
claimed 400-before-any-embedding-call. -/
theorem missing_question_counterexample :
    (queryDocuments (fun _ => Except.error ()) [] (fun _ _ => [])
        (fun _ _ => Except.error ()) none).status = 500
    ∧ (queryDocuments (fun _ => Except.error ()) [] (fun _ _ => [])
        (fun _ _ => Except.error ()) none).embedArgs = [none] :=
  ⟨rfl, rfl⟩

theorem mem_insertDesc (m x : QMatch) (l : List QMatch) :
    x ∈ insertDesc m l ↔ x = m ∨ x ∈ l := by
  induction l with
  | nil => simp [insertDesc]
  | cons a t ih =>
    simp only [insertDesc]
    split
    · simp [List.mem_cons]
    · simp only [List.mem_cons, ih]
      tauto

theorem mem_sortMatches (ms : List QMatch) (x : QMatch) :
    x ∈ sortMatches ms ↔ x ∈ ms := by
  unfold sortMatches
  induction ms with
  | nil => simp
  | cons a t ih => simp only [List.foldr_cons, mem_insertDesc, ih, List.mem_cons]

theorem length_insertDesc (m : QMatch) (l : List QMatch) :
    (insertDesc m l).length = l.length + 1 := by
  induction l with
  | nil => rfl
  | cons a t ih =>
    simp only [insertDesc]
    split
    · simp
    · simp [ih]

theorem length_sortMatches (ms : List QMatch) : (sortMatches ms).length = ms.length := by
  unfold sortMatches
  induction ms with
  | nil => rfl
  | cons a t ih => simp only [List.foldr_cons, length_insertDesc, ih, List.length_cons]

/-- C3 (amended): the kept matches are exactly those whose score is strictly
above the 0.3 threshold (a match at exactly 0.3 is dropped by the filter);
when no match is strictly above the threshold but matches exist, the top 5
of the sorted list are kept instead, so a non-empty match list always
yields a non-empty surviving set. -/
theorem threshold_filter_amended :
    ∀ allMatches : List QMatch,
      ((∃ m ∈ allMatches, scoreThreshold < m.score) →
        ∀ m, m ∈ selectRelevant allMatches ↔ m ∈ allMatches ∧ scoreThreshold < m.score)
      ∧ ((∀ m ∈ allMatches, ¬ scoreThreshold < m.score) → allMatches ≠ [] →
          selectRelevant allMatches = (sortMatches allMatches).take 5)
      ∧ (allMatches ≠ [] → selectRelevant allMatches ≠ []) := by
  intro ms
  have hfilter : ∀ m, m ∈ (sortMatches ms).filter (fun m => scoreThreshold < m.score)
      ↔ m ∈ ms ∧ scoreThreshold < m.score := by
    intro m
    rw [List.mem_filter, mem_sortMatches]
    simp
  refine ⟨?_, ?_, ?_⟩
  · rintro ⟨m0, hm0, hs0⟩ m
    simp only [selectRelevant]
    have hne : (sortMatches ms).filter (fun m => scoreThreshold < m.score) ≠ [] := by
      intro hnil
      have hmem := (hfilter m0).mpr ⟨hm0, hs0⟩
      rw [hnil] at hmem
      simp at hmem
    rw [if_neg (by rintro ⟨h1, _⟩; exact hne (List.length_eq_zero.mp h1))]
    exact hfilter m
  · intro hnone hne
    simp only [selectRelevant]
    rw [if_pos ?_]
    constructor
    · rw [List.length_eq_zero, List.filter_eq_nil_iff]
      intro a ha
      rw [mem_sortMatches] at ha
      simpa using hnone a ha
    · exact List.length_pos.mpr hne
  · intro hne
    have hmslen : 0 < ms.length := List.length_pos.mpr hne
    simp only [selectRelevant]
    by_cases hcond : ((sortMatches ms).filter (fun m => scoreThreshold < m.score)).length = 0
        ∧ 0 < ms.length
    · rw [if_pos hcond]
      have hlen : 0 < ((sortMatches ms).take 5).length := by
        rw [List.length_take, length_sortMatches]
        omega
      intro hnil
      rw [hnil] at hlen
      simp at hlen
    · rw [if_neg hcond]
      intro hnil
      exact hcond ⟨by rw [hnil]; rfl, hmslen⟩

/-- C3 counterexample: with one match at score 1 and one at exactly the 0.3
threshold, the code keeps only the former while the spec's at-or-above rule
keeps both. -/
theorem threshold_filter_counterexample :
    selectRelevant [matchHigh, matchAt] = [matchHigh]
    ∧ relevantAtOrAbove [matchHigh, matchAt] = [matchHigh, matchAt] := by
  constructor
  · norm_num [selectRelevant, sortMatches, insertDesc, scoreThreshold, matchHigh, matchAt,
      List.filter]
  · norm_num [relevantAtOrAbove, sortMatches, insertDesc, scoreThreshold, matchHigh, matchAt,
      List.filter]

/-- Witness instantiating `threshold_filter_amended` at concrete match
lists. -/
theorem threshold_filter_amended_witness :
    ((∃ m ∈ [matchHigh], scoreThreshold < m.score) ∧
      (matchHigh ∈ selectRelevant [matchHigh]
        ↔ matchHigh ∈ [matchHigh] ∧ scoreThreshold < matchHigh.score))
    ∧ ((∀ m ∈ [matchLow], ¬ scoreThreshold < m.score) ∧ ([matchLow] : List QMatch) ≠ [] ∧
      selectRelevant [matchLow] = (sortMatches [matchLow]).take 5)
    ∧ (([matchLow] : List QMatch) ≠ [] ∧ selectRelevant [matchLow] ≠ []) := by
  have h1 : ∃ m ∈ [matchHigh], scoreThreshold < m.score :=
    ⟨matchHigh, by simp, by norm_num [matchHigh, scoreThreshold]⟩
  have h2 : ∀ m ∈ [matchLow], ¬ scoreThreshold < m.score := by
    intro m hm
    simp only [List.mem_singleton] at hm
    subst hm
    norm_num [matchLow, scoreThreshold]
  have h3 : ([matchLow] : List QMatch) ≠ [] := by simp
  exact ⟨⟨h1, (threshold_filter_amended [matchHigh]).1 h1 matchHigh⟩,
    ⟨h2, h3, (threshold_filter_amended [matchLow]).2.1 h2 h3⟩,
    ⟨h3, (threshold_filter_amended [matchLow]).2.2 h3⟩⟩

/-- C4 (amended): the upload path performs no empty-document validation:
when the extracted text is empty and the upsert call succeeds, the upload
answers 200 and makes exactly one upsert call carrying an empty batch; no
400 empty-document error exists (and whitespace-only text is chunked,
embedded and upserted like any other text). -/
theorem empty_upload_amended :
    ∀ (pdfParse : List Nat → Except Unit (List Char))
      (embed : List Char → Except Unit (List Rat))
      (upsertRes : List VectorRec → Except Unit Unit) (file : JsFile),
      extractText pdfParse file = Except.ok [] →
      upsertRes [] = Except.ok () →
      uploadDocument pdfParse embed upsertRes (some file)
        = { status := 200, upsertCalls := [[]] } := by
  intro pdfP embed up file hext hup
  have hchunks : chunkTextR [] 500 100 = [] := chunkTextR_nil 500 100
  simp only [uploadDocument, hext, hchunks, List.mapM_nil, List.enum_nil, List.map_nil]
  simp only [pure, Except.pure]
  rw [hup]

/-- C4 counterexample: an upload with empty extracted text answers 200 (not
the claimed 400) and still issues an upsert call (with an empty batch), and
a whitespace-only upload is processed like any other text: 200 with its
one chunk vector upserted. -/
theorem empty_upload_counterexample :
    (uploadDocument pdfFail embedOne upsertOk (some emptyTextFile)).status = 200
    ∧ uploadDocument pdfFail embedOne upsertOk (some spaceFile)
      = { status := 200,
          upsertCalls :=
            [[{ id := "doc.txt-chunk-0".data, values := [1], metadata := [' '] }]] } :=
  ⟨rfl, rfl⟩

/-- Witness instantiating `empty_upload_amended` at a concrete file and
concrete oracles. -/
theorem empty_upload_amended_witness :
    extractText pdfFail emptyTextFile = Except.ok [] ∧ upsertOk [] = Except.ok () ∧
    uploadDocument pdfFail embedOne upsertOk (some emptyTextFile)
      = { status := 200, upsertCalls := [[]] } :=
  ⟨rfl, rfl, empty_upload_amended pdfFail embedOne upsertOk emptyTextFile rfl rfl⟩

theorem mapM_loop_error_of_mem {α β : Type} (f : α → Except Unit β) :
    ∀ (l : List α) (acc : List β), (∃ a ∈ l, ∃ e, f a = Except.error e) →
      ∃ e, List.mapM.loop f l acc = Except.error e := by
  intro l
  induction l with
  | nil =>
    rintro acc ⟨a, ha, _⟩
    simp at ha
  | cons x t ih =>
    rintro acc ⟨a, ha, e, hfa⟩
    simp only [List.mapM.loop]
    cases hfx : f x with
    | error e2 => exact ⟨e2, rfl⟩
    | ok b =>
      rcases List.mem_cons.mp ha with rfl | hat
      · rw [hfx] at hfa
        simp at hfa
      · obtain ⟨e3, he3⟩ := ih (b :: acc) ⟨a, hat, e, hfa⟩
        exact ⟨e3, he3⟩

theorem mapM_error_of_mem {α β : Type} (f : α → Except Unit β) (l : List α)
    (h : ∃ a ∈ l, ∃ e, f a = Except.error e) : ∃ e, l.mapM f = Except.error e :=
  mapM_loop_error_of_mem f l [] h

/-- C6: if any single embedding call of an upload fails, the whole upload
fails with 500 and no upsert call is made; in general the vector store
receives either all of the upload's chunk vectors in one batch or nothing
at all. -/
theorem upload_atomicity :
    (∀ (pdfParse : List Nat → Except Unit (List Char))
      (embed : List Char → Except Unit (List Rat))
      (upsertRes : List VectorRec → Except Unit Unit) (file : JsFile) (text : List Char),
      extractText pdfParse file = Except.ok text →
      (∃ c ∈ chunkTextR text 500 100, ∃ e, embed c = Except.error e) →
      uploadDocument pdfParse embed upsertRes (some file)
        = { status := 500, upsertCalls := [] })
    ∧ (∀ (pdfParse : List Nat → Except Unit (List Char))
      (embed : List Char → Except Unit (List Rat))
      (upsertRes : List VectorRec → Except Unit Unit) (file? : Option JsFile),
      (uploadDocument pdfParse embed upsertRes file?).upsertCalls = [] ∨
      ∃ file text embeds, file? = some file ∧ extractText pdfParse file = Except.ok text ∧
        (chunkTextR text 500 100).mapM embed = Except.ok embeds ∧
        (uploadDocument pdfParse embed upsertRes file?).upsertCalls
          = [(chunkTextR text 500 100).enum.map fun p =>
              { id := vectorId file.originalname p.1, values := embeds.getD p.1 [],
                metadata := p.2 : VectorRec }]) := by
  constructor
  · intro pdfP embed up file text hext hfail
    obtain ⟨e, he⟩ := mapM_error_of_mem embed (chunkTextR text 500 100) hfail
    have he2 : List.mapM.loop embed (chunkTextR text 500 100) [] = Except.error e := he
    simp [uploadDocument, hext, he, he2]
  · intro pdfP embed up file?
    cases file? with
    | none => exact Or.inl rfl
    | some file =>
      cases hext : extractText pdfP file with
      | error s =>
        left
        simp [uploadDocument, hext]
      | ok text =>
        cases hm : (chunkTextR text 500 100).mapM embed with
        | error e =>
          left
          have hm2 : List.mapM.loop embed (chunkTextR text 500 100) [] = Except.error e := hm
          simp [uploadDocument, hext, hm, hm2]
        | ok embeds =>
          right
          refine ⟨file, text, embeds, rfl, hext, hm, ?_⟩
          have hm2 : List.mapM.loop embed (chunkTextR text 500 100) [] = Except.ok embeds := hm
          simp only [uploadDocument, hext, hm, hm2]
          split <;> rfl

/-- Witness instantiating `upload_atomicity` at a concrete file and a
failing embedding oracle. -/
theorem upload_atomicity_witness :
    extractText pdfFail hiFile = Except.ok ['h', 'i'] ∧
    (∃ c ∈ chunkTextR ['h', 'i'] 500 100, ∃ e, embedFail c = Except.error e) ∧
    uploadDocument pdfFail embedFail upsertOk (some hiFile)
      = { status := 500, upsertCalls := [] } := by
  have hmem : ['h', 'i'] ∈ chunkTextR ['h', 'i'] 500 100 := by decide
  exact ⟨rfl, ⟨['h', 'i'], hmem, (), rfl⟩,
    upload_atomicity.1 pdfFail embedFail upsertOk hiFile ['h', 'i'] rfl
      ⟨['h', 'i'], hmem, (), rfl⟩⟩

/-- Witness instantiating `missing_question_amended` at concrete oracles. -/
theorem missing_question_amended_witness :
    (queryDocuments (fun _ => Except.ok []) [] (fun _ _ => []) (fun _ _ => Except.ok [])
        none).status ≠ 400
    ∧ (queryDocuments (fun _ => Except.ok []) [] (fun _ _ => []) (fun _ _ => Except.ok [])
        none).embedArgs = [none] :=
  ⟨missing_question_amended.1 (fun _ => Except.ok []) [] (fun _ _ => [])
      (fun _ _ => Except.ok []) none,
    missing_question_amended.2 (fun _ => Except.ok []) [] (fun _ _ => [])
      (fun _ _ => Except.ok [])⟩
